import Mathlib

/-!
Verification of the krypton streaming encryption core.

Shallow embedding, in Lean 4, of the chunked authenticated-encryption
container codec (src/crypto/aes.rs, src/crypto/chacha20.rs), the engine
helpers (src/crypto/engine.rs), the progress tracker (src/progress.rs)
and the data model (src/models.rs) of the krypton repository, together
with theorems settling the frozen behavioural claims.

Modelling conventions:
* Byte streams are `List Nat` (each element a byte value; readers consume
  from the front, writers append).  A Rust `Read::read` into a
  `chunk_size` buffer over a finite stream yields
  `min chunk_size remaining` bytes; `read_exact n` fails with
  `UnexpectedEof` exactly when fewer than `n` bytes remain.
* The AEAD ciphers (crates aes-gcm / chacha20poly1305) and the Argon2
  key-derivation function (crate argon2) are external collaborators:
  they appear as parameters (`Cipher`, `kd`), and theorems that need
  the AEAD round-trip law take it as a hypothesis.
* Randomness (`OsRng`) is externalised: the 32-byte salt and the
  per-chunk 12-byte nonces drawn during `encrypt_stream` are passed in
  as parameters (`salt`, `nonces`).
* Machine floats (`f32`/`f64` ratio and speed fields of `ProgressInfo`)
  are modelled as exact rationals; `u64`/`usize` counters as `Nat`
  (overflow is unreachable for physical file sizes).
* A Rust panic (out-of-bounds slice) is modelled by `Option`: `none` is
  the panic.
-/

namespace Krypton

/-! Definitions -/

/-- Error taxonomy of `src/crypto/traits.rs` (`CryptoError`).  The
`String` payloads of the Rust enum are reduced to the chunk index that
the source formats into the message; `IoError`'s payload is dropped. -/
inductive CryptoError where
  | IoError : CryptoError
  | EncryptionError : Nat → CryptoError
  | DecryptionError : Nat → CryptoError
  | KeyDerivationError : CryptoError
  | InvalidPassword : CryptoError
  | InvalidFormat : CryptoError
deriving DecidableEq, Repr

/-- An AEAD cipher instance as used through the `aead::Aead` interface:
`enc key nonce plaintext` returns the ciphertext (plaintext + tag), and
`dec key nonce ciphertext` authenticates and returns the plaintext;
`none` models the `Err` of the crate. -/
structure Cipher where
  enc : List Nat → List Nat → List Nat → Option (List Nat)
  dec : List Nat → List Nat → List Nat → Option (List Nat)

/-- Models `(n as u32).to_le_bytes()` of `aes.rs` line 72: the four
little-endian bytes of `n` truncated to 32 bits. -/
def u32le (n : Nat) : List Nat :=
  [n % 256, n / 256 % 256, n / 65536 % 256, n / 16777216 % 256]

/-- Models `u32::from_le_bytes` (`aes.rs` line 118) on a little-endian byte
list: folds bytes from the least significant end. -/
def leVal (l : List Nat) : Nat :=
  l.foldr (fun b acc => b + 256 * acc) 0

/-- The chunked encryption loop of `encrypt_stream`
(`aes.rs`/`chacha20.rs` lines 53-76).  Returns the operation result
paired with the bytes written so far (records already emitted stay
written even when a later chunk fails, matching the streaming writer).
`min chunkSize input.length` is the `bytes_read` of the `read` call;
`0` bytes read breaks the loop. -/
def encryptLoop (c : Cipher) (key : List Nat) (nonces : Nat → List Nat)
    (chunkSize : Nat) (idx : Nat) (input : List Nat) :
    Except CryptoError Unit × List Nat :=
  if min chunkSize input.length = 0 then
    (Except.ok (), [])
  else
    match c.enc key (nonces idx) (input.take chunkSize) with
    | none => (Except.error (CryptoError.EncryptionError idx), [])
    | some ct =>
      let rest := encryptLoop c key nonces chunkSize (idx + 1) (input.drop chunkSize)
      (rest.1, (nonces idx ++ u32le ct.length ++ ct) ++ rest.2)
termination_by input.length
decreasing_by
  simp only [List.length_drop]
  omega

/-- Models `encrypt_stream` (`aes.rs`/`chacha20.rs` lines 26-79): empty
password check, salt generation (externalised as the `salt` argument),
key derivation, salt written to the output header, then the chunk loop.
Result is paired with the full byte stream written to `writer`. -/
def encrypt_stream (c : Cipher) (kd : List Nat → List Nat → List Nat)
    (salt : List Nat) (nonces : Nat → List Nat) (chunkSize : Nat)
    (password input : List Nat) : Except CryptoError Unit × List Nat :=
  if password = [] then
    (Except.error CryptoError.InvalidPassword, [])
  else
    let key := kd password salt
    let body := encryptLoop c key nonces chunkSize 0 input
    (body.1, salt ++ body.2)

/-- The chunked decryption loop of `decrypt_stream`
(`aes.rs`/`chacha20.rs` lines 105-132).  `read_exact` into a 12-byte
nonce buffer yields `UnexpectedEof` whenever fewer than 12 bytes
remain, and the source `break`s on that kind, so any stream shorter
than 12 bytes terminates the loop normally.  Truncation inside the
4-byte length field or the ciphertext propagates as an I/O error. -/
def decryptLoop (c : Cipher) (key : List Nat) (idx : Nat)
    (input : List Nat) : Except CryptoError Unit × List Nat :=
  if input.length < 12 then
    (Except.ok (), [])
  else
    let nonce := input.take 12
    let r1 := input.drop 12
    if r1.length < 4 then
      (Except.error CryptoError.IoError, [])
    else
      let len := leVal (r1.take 4)
      let r2 := r1.drop 4
      if r2.length < len then
        (Except.error CryptoError.IoError, [])
      else
        match c.dec key nonce (r2.take len) with
        | none => (Except.error (CryptoError.DecryptionError idx), [])
        | some pt =>
          let rest := decryptLoop c key (idx + 1) (r2.drop len)
          (rest.1, pt ++ rest.2)
termination_by input.length
decreasing_by
  simp only [List.length_drop]
  omega

/-- Models `decrypt_stream` (`aes.rs`/`chacha20.rs` lines 81-135): empty
password check, `read_exact` of the 32-byte salt (truncated input is an
I/O error), key derivation, then the chunk loop on the remainder. -/
def decrypt_stream (c : Cipher) (kd : List Nat → List Nat → List Nat)
    (password input : List Nat) : Except CryptoError Unit × List Nat :=
  if password = [] then
    (Except.error CryptoError.InvalidPassword, [])
  else if input.length < 32 then
    (Except.error CryptoError.IoError, [])
  else
    let key := kd password (input.take 32)
    decryptLoop c key 0 (input.drop 32)

/-- An idealised AEAD used only to witness the cipher hypotheses: the
ciphertext is the plaintext with a 16-byte tag of zeros appended. -/
def tagCipher : Cipher where
  enc := fun _ _ m => some (m ++ List.replicate 16 0)
  dec := fun _ _ ctext =>
    if 16 ≤ ctext.length then some (ctext.take (ctext.length - 16)) else none

/-- Parser for the on-wire chunk-record stream that follows the salt
(spec section 6): zero or more records, each `nonce(12B) ‖
ciphertext_length(4B, little-endian u32) ‖ ciphertext`.  Returns the
list of `(nonce, ciphertext)` records, or `none` when the bytes are not
exactly a concatenation of such records. -/
def parseRecords (bytes : List Nat) : Option (List (List Nat × List Nat)) :=
  if bytes.length = 0 then some []
  else if bytes.length < 12 then none
  else
    let nonce := bytes.take 12
    let r1 := bytes.drop 12
    if r1.length < 4 then none
    else
      let len := leVal (r1.take 4)
      let r2 := r1.drop 4
      if r2.length < len then none
      else (parseRecords (r2.drop len)).map (fun rs => (nonce, r2.take len) :: rs)
termination_by bytes.length
decreasing_by
  simp only [List.length_drop]
  omega

/-- Number of iterations of the chunk loop of `encrypt_stream`: one per
non-empty read of up to `chunkSize` bytes. -/
def numChunks (chunkSize : Nat) (input : List Nat) : Nat :=
  if min chunkSize input.length = 0 then 0
  else numChunks chunkSize (input.drop chunkSize) + 1
termination_by input.length
decreasing_by
  simp only [List.length_drop]
  omega

/-- Models `ProgressInfo` of `src/models.rs` lines 41-54.  `f32`/`f64` ratio
and speed fields are modelled as exact rationals; `u64`/`usize`
counters as `Nat`. -/
structure ProgressInfo where
  current_file : String
  current_file_index : Nat
  total_files : Nat
  current_file_progress : ℚ
  overall_progress : ℚ
  current_file_size : Nat
  processed_bytes : Nat
  total_bytes : Nat
  speed_mbps : ℚ
  elapsed_time : ℚ
  estimated_remaining : ℚ
deriving DecidableEq, Repr

/-- The initial state built by `ProgressTracker::new`
(`progress.rs` lines 28-40): all counters zero except the constructor
arguments `total_files` and `total_bytes`. -/
def trackerInit (total_files total_bytes : Nat) : ProgressInfo :=
  { current_file := ""
    current_file_index := 0
    total_files := total_files
    current_file_progress := 0
    overall_progress := 0
    current_file_size := 0
    processed_bytes := 0
    total_bytes := total_bytes
    speed_mbps := 0
    elapsed_time := 0
    estimated_remaining := 0 }

/-- Models `ProgressTracker::update_timing` (`progress.rs` lines 96-112) with
the wall clock externalised as `now` (the elapsed seconds). -/
def update_timing (now : ℚ) (p : ProgressInfo) : ProgressInfo :=
  let q := { p with elapsed_time := now }
  if 0 < now ∧ 0 < q.processed_bytes then
    let speed := (q.processed_bytes : ℚ) / (1024 * 1024) / now
    let remaining_bytes := q.total_bytes - q.processed_bytes
    let q := { q with speed_mbps := speed }
    if 0 < speed then
      { q with estimated_remaining := (remaining_bytes : ℚ) / (1024 * 1024) / speed }
    else
      { q with estimated_remaining := 0 }
  else q

/-- Models `ProgressTracker::start_file` (`progress.rs` lines 52-64). -/
def start_file (p : ProgressInfo) (file_index : Nat) (file_name : String)
    (file_size : Nat) (now : ℚ) : ProgressInfo :=
  update_timing now
    { p with
      current_file := file_name
      current_file_index := file_index
      current_file_size := file_size
      current_file_progress := 0
      overall_progress := (file_index : ℚ) / (p.total_files : ℚ) }

/-- Models `ProgressTracker::complete_file` (`progress.rs` lines 67-77). -/
def complete_file (p : ProgressInfo) (file_size : Nat) (now : ℚ) : ProgressInfo :=
  update_timing now
    { p with
      current_file_progress := 1
      processed_bytes := p.processed_bytes + file_size
      overall_progress := ((p.current_file_index : ℚ) + 1) / (p.total_files : ℚ) }

/-- Models `f32::clamp(lo, hi)` on exact rationals: below `lo` gives `lo`,
above `hi` gives `hi`, otherwise the value itself. -/
def clampQ (x lo hi : ℚ) : ℚ :=
  if x < lo then lo else if hi < x then hi else x

/-- Models `ProgressTracker::update_file_progress` (`progress.rs` lines
80-88). -/
def update_file_progress (p : ProgressInfo) (progress_ratio : ℚ) (now : ℚ) :
    ProgressInfo :=
  update_timing now { p with current_file_progress := clampQ progress_ratio 0 1 }

/-- One call into the tracker: the three mutating operations of
`ProgressTracker`, each carrying the wall-clock reading `now` that
`update_timing` observes. -/
inductive ProgressOp where
  | start : Nat → String → Nat → ℚ → ProgressOp
  | update : ℚ → ℚ → ProgressOp
  | complete : Nat → ℚ → ProgressOp

/-- Dispatch one tracker operation on the shared `ProgressInfo`
state. -/
def applyOp (p : ProgressInfo) : ProgressOp → ProgressInfo
  | ProgressOp.start i name size now => start_file p i name size now
  | ProgressOp.update r now => update_file_progress p r now
  | ProgressOp.complete size now => complete_file p size now

/-- The sequence of snapshots a consumer observes: the state after each
emitted update, starting from the initial state. -/
def snapshots (p : ProgressInfo) (ops : List ProgressOp) : List ProgressInfo :=
  List.scanl applyOp p ops

/-- The body a pool worker runs for one file
(`engine.rs` lines 232-257): re-check the stop flag, then the skip
flag (consuming it), else perform the real work whose outcome is
`real`.  Returns the result sent on the channel and the new value of
the shared skip flag. -/
def workerStep (stop skip : Bool) (real : Except String Unit) :
    Except String Unit × Bool :=
  if stop then (Except.error "Operation cancelled", skip)
  else if skip then (Except.ok (), false)
  else (real, skip)

/-- Serialised run of the pool workers, threading the shared skip flag
through the atomically-executed check-and-reset of each task.  Each
task is given as (stop-flag value it observes, its real result, its
file size); the output pairs each task's sent result with its file
size, plus the final skip flag. -/
def runPoolTasks (skip : Bool) :
    List (Bool × Except String Unit × Nat) →
      List (Except String Unit × Nat) × Bool
  | [] => ([], skip)
  | (stop, real, size) :: rest =>
    let step := workerStep stop skip real
    let cont := runPoolTasks step.2 rest
    ((step.1, size) :: cont.1, cont.2)

/-- Models the `processed_bytes` accumulated by the orchestrator's result loop
(`engine.rs` lines 264-292): it calls
`progress_tracker.complete_file(file_size)` for every `Ok` result and
returns at the first error. -/
def processedBytesOf : List (Except String Unit × Nat) → Nat
  | [] => 0
  | (Except.ok _, size) :: rest => size + processedBytesOf rest
  | (Except.error _, _) :: _ => 0

/-- Models `OperationStatus` of `src/models.rs` lines 32-38. -/
inductive OperationStatus where
  | Running : OperationStatus
  | Completed : OperationStatus
  | Failed : String → OperationStatus
  | Cancelled : OperationStatus
deriving DecidableEq, Repr

/-- The dispatch loop's stop check (`engine.rs` line 212): the first
iteration index, if any, at which the shared stop flag reads true. -/
def firstStop (stopDisp : Nat → Bool) (n : Nat) : Option Nat :=
  (List.range n).find? stopDisp

/-- The writes to the shared status cell made by the result-collection
loop of `process_files_async_with_pool` (`engine.rs` lines 264-296).
`k` is the iteration counter, `rem` the results still pending;
`stopRecv k` is the stop-flag value observed at iteration `k` and
`entry k` the channel message (`none` models `rx.recv()` failing).
Every branch that writes a status returns immediately afterwards;
after all results are drained the loop writes `Completed`. -/
def recvWrites (stopRecv : Nat → Bool)
    (entry : Nat → Option (Nat × Except String Unit)) :
    Nat → Nat → List OperationStatus
  | _, 0 => [OperationStatus.Completed]
  | k, rem + 1 =>
    if stopRecv k then [OperationStatus.Cancelled]
    else
      match entry k with
      | none => [OperationStatus.Failed "Failed to receive result from thread pool"]
      | some (_, Except.error e) => [OperationStatus.Failed e]
      | some (_, Except.ok _) => recvWrites stopRecv entry (k + 1) rem

/-- All writes to the shared status cell during one run of
`process_files_async_with_pool` on `n` files: either the dispatch loop
observes the stop flag and writes `Cancelled` (`engine.rs` lines
212-215), or all `n` tasks are dispatched and the result loop runs.
The cell is initialised to `Running` by `start_operation_async`
(`engine.rs` line 59); only the orchestrator writes it afterwards. -/
def statusWrites (n : Nat) (stopDisp stopRecv : Nat → Bool)
    (entry : Nat → Option (Nat × Except String Unit)) : List OperationStatus :=
  match firstStop stopDisp n with
  | some _ => [OperationStatus.Cancelled]
  | none => recvWrites stopRecv entry 0 n

/-- Rust's `str::trim_end_matches` over char lists: repeatedly removes
the pattern from the end while it is a suffix.  (`engine.rs` line 383
always calls it with the non-empty pattern `"." + extension`.) -/
def trimEndMatches (s pat : List Char) : List Char :=
  if pat ≠ [] ∧ pat.isSuffixOf s then
    trimEndMatches (s.take (s.length - pat.length)) pat
  else s
termination_by s.length
decreasing_by
  rename_i h
  have hle : pat.length ≤ s.length :=
    (List.isSuffixOf_iff_suffix.mp h.2).length_le
  have hp : 0 < pat.length := List.length_pos.mpr h.1
  simp only [List.length_take]
  omega

/-- The decrypt branch of `CryptoEngine::generate_output_path`
(`engine.rs` lines 379-388): if the file name ends with
`"." + extension`, `trim_end_matches` the pattern; otherwise append
`".decrypted"`. -/
def decryptOutputName (file_extension file_name : List Char) : List Char :=
  let pat := '.' :: file_extension
  if pat.isSuffixOf file_name then trimEndMatches file_name pat
  else file_name ++ ".decrypted".data

/-- The default `CryptoProvider::verify_password`
(`src/crypto/traits.rs` lines 66-68): always `Ok(true)`; both
providers inherit it. -/
def provider_verify_password (_password _data : List Nat) :
    Except CryptoError Bool :=
  Except.ok true

/-- A Rust range slice `&data[0..n]`: `none` models the
index-out-of-range panic raised when `n` exceeds the length. -/
def sliceTo (data : List Nat) (n : Nat) : Option (List Nat) :=
  if n ≤ data.length then some (data.take n) else none

/-- Models `CryptoEngine::verify_password` (`engine.rs` lines 402-412) applied
to the bytes read from the file: `Ok(false)` for fewer than 32 bytes,
otherwise it slices `&file_data[0..64]` and hands it to the provider;
`none` is the panic of that slice. -/
def engine_verify_password (password file_data : List Nat) :
    Option (Except CryptoError Bool) :=
  if file_data.length < 32 then some (Except.ok false)
  else (sliceTo file_data 64).map (provider_verify_password password)

/-! Theorems -/

theorem u32le_length (n : Nat) : (u32le n).length = 4 := rfl

theorem leVal_u32le (n : Nat) : leVal (u32le n) = n % 4294967296 := by
  simp only [u32le, leVal, List.foldr]
  omega

theorem encryptLoop_min_zero (c : Cipher) (key : List Nat) (nonces : Nat → List Nat)
    (chunkSize idx : Nat) (input : List Nat) (h : min chunkSize input.length = 0) :
    encryptLoop c key nonces chunkSize idx input = (Except.ok (), []) := by
  rw [encryptLoop, if_pos h]

theorem encryptLoop_step (c : Cipher) (key : List Nat) (nonces : Nat → List Nat)
    (chunkSize idx : Nat) (input : List Nat) (ct : List Nat)
    (h : ¬ min chunkSize input.length = 0)
    (henc : c.enc key (nonces idx) (input.take chunkSize) = some ct) :
    encryptLoop c key nonces chunkSize idx input =
      ((encryptLoop c key nonces chunkSize (idx + 1) (input.drop chunkSize)).1,
        (nonces idx ++ u32le ct.length ++ ct) ++
          (encryptLoop c key nonces chunkSize (idx + 1) (input.drop chunkSize)).2) := by
  rw [encryptLoop, if_neg h, henc]

theorem decryptLoop_eof (c : Cipher) (key : List Nat) (idx : Nat) (input : List Nat)
    (h : input.length < 12) :
    decryptLoop c key idx input = (Except.ok (), []) := by
  rw [decryptLoop, if_pos h]

theorem decryptLoop_lenTrunc (c : Cipher) (key : List Nat) (idx : Nat) (input : List Nat)
    (h12 : ¬ input.length < 12) (h4 : (input.drop 12).length < 4) :
    decryptLoop c key idx input = (Except.error CryptoError.IoError, []) := by
  rw [decryptLoop, if_neg h12]
  simp only [if_pos h4]

theorem decryptLoop_ctTrunc (c : Cipher) (key : List Nat) (idx : Nat) (input : List Nat)
    (h12 : ¬ input.length < 12) (h4 : ¬ (input.drop 12).length < 4)
    (hc : ((input.drop 12).drop 4).length < leVal ((input.drop 12).take 4)) :
    decryptLoop c key idx input = (Except.error CryptoError.IoError, []) := by
  rw [decryptLoop, if_neg h12]
  simp only [if_neg h4, if_pos hc]

/-- Decrypting a well-formed record at the head of the stream consumes
exactly `nonce ‖ u32le |ct| ‖ ct`, emits the AEAD plaintext and
continues on the remainder. -/
theorem decryptLoop_record (c : Cipher) (key : List Nat) (jdx : Nat)
    (nonce ct rest pt : List Nat)
    (hn : nonce.length = 12) (hct : ct.length < 4294967296)
    (hdec : c.dec key nonce ct = some pt) :
    decryptLoop c key jdx (nonce ++ u32le ct.length ++ ct ++ rest) =
      ((decryptLoop c key (jdx + 1) rest).1,
        pt ++ (decryptLoop c key (jdx + 1) rest).2) := by
  have h12 : ¬ (nonce ++ u32le ct.length ++ ct ++ rest).length < 12 := by
    simp [List.length_append, hn]
  have t1 : (nonce ++ (u32le ct.length ++ (ct ++ rest))).take 12 = nonce :=
    List.take_left' hn
  have d1 : (nonce ++ (u32le ct.length ++ (ct ++ rest))).drop 12 =
      u32le ct.length ++ (ct ++ rest) := List.drop_left' hn
  have t2 : (u32le ct.length ++ (ct ++ rest)).take 4 = u32le ct.length :=
    List.take_left' (u32le_length _)
  have d2 : (u32le ct.length ++ (ct ++ rest)).drop 4 = ct ++ rest :=
    List.drop_left' (u32le_length _)
  have hlen : leVal (u32le ct.length) = ct.length := by
    rw [leVal_u32le]
    exact Nat.mod_eq_of_lt hct
  have h4 : ¬ (u32le ct.length ++ (ct ++ rest)).length < 4 := by
    simp [List.length_append, u32le_length]
  have hc : ¬ (ct ++ rest).length < ct.length := by
    simp [List.length_append]
  rw [decryptLoop, if_neg h12]
  simp only [List.append_assoc] at *
  simp only [d1, t1, t2, d2, hlen, List.take_left, List.drop_left, if_neg h4, if_neg hc, hdec]

/-- Round-trip of the chunk loops: whenever the AEAD satisfies its
decrypt-of-encrypt law on chunk-sized messages and every ciphertext
length fits in a `u32`, the encryption loop succeeds and the decryption
loop inverts it exactly.  `fuel` bounds the input length to drive the
induction. -/
theorem decryptLoop_encryptLoop (c : Cipher) (key : List Nat) (nonces : Nat → List Nat)
    (chunkSize : Nat) (hcs : 0 < chunkSize)
    (hnon : ∀ i, (nonces i).length = 12)
    (hround : ∀ n m, m.length ≤ chunkSize → (c.enc key n m).bind (c.dec key n) = some m)
    (hctlen : ∀ n m ct, m.length ≤ chunkSize → c.enc key n m = some ct →
      ct.length < 4294967296) :
    ∀ fuel input idx jdx, input.length ≤ fuel →
      (encryptLoop c key nonces chunkSize idx input).1 = Except.ok () ∧
      decryptLoop c key jdx (encryptLoop c key nonces chunkSize idx input).2 =
        (Except.ok (), input) := by
  intro fuel
  induction fuel with
  | zero =>
    intro input idx jdx hle
    have hnil : input = [] := List.eq_nil_of_length_eq_zero (Nat.le_zero.mp hle)
    subst hnil
    rw [encryptLoop_min_zero _ _ _ _ _ _ (by simp)]
    exact ⟨rfl, decryptLoop_eof _ _ _ _ (by simp)⟩
  | succ n ih =>
    intro input idx jdx hle
    by_cases h0 : min chunkSize input.length = 0
    · have hnil : input = [] := by
        have : input.length = 0 := by omega
        exact List.eq_nil_of_length_eq_zero this
      subst hnil
      rw [encryptLoop_min_zero _ _ _ _ _ _ (by simp)]
      exact ⟨rfl, decryptLoop_eof _ _ _ _ (by simp)⟩
    · have hchunk : (input.take chunkSize).length ≤ chunkSize := by
        simp [List.length_take]
      obtain ⟨ct, henc, hdec⟩ :=
        Option.bind_eq_some.mp (hround (nonces idx) (input.take chunkSize) hchunk)
      have hct : ct.length < 4294967296 := hctlen _ _ _ hchunk henc
      have hdrop : (input.drop chunkSize).length ≤ n := by
        simp only [List.length_drop]
        omega
      obtain ⟨ih1, ih2⟩ := ih (input.drop chunkSize) (idx + 1) (jdx + 1) hdrop
      rw [encryptLoop_step c key nonces chunkSize idx input ct h0 henc]
      refine ⟨ih1, ?_⟩
      have hrec := decryptLoop_record c key jdx (nonces idx) ct
        ((encryptLoop c key nonces chunkSize (idx + 1) (input.drop chunkSize)).2)
        (input.take chunkSize) (hnon idx) hct hdec
      simp only [List.append_assoc] at hrec ⊢
      rw [hrec, ih2]
      simp [List.take_append_drop]

/-- C1: For every non-empty credential and every finite byte content,
decrypting the output of `encrypt_stream` with the same credential and
the same algorithm succeeds and writes exactly the original content.
The cipher is an arbitrary AEAD instance satisfying the
decrypt-of-encrypt law of the aes-gcm / chacha20poly1305 crates (both
algorithms are instances), the key-derivation function is an arbitrary
deterministic function (Argon2 is deterministic for a fixed
password/salt pair), and the salt and nonces drawn from `OsRng` are
universally quantified with their generated lengths (32 and 12). -/
theorem encrypt_decrypt_roundtrip (c : Cipher) (kd : List Nat → List Nat → List Nat)
    (salt : List Nat) (nonces : Nat → List Nat) (chunkSize : Nat)
    (password input : List Nat)
    (hpw : password ≠ [])
    (hsalt : salt.length = 32)
    (hcs : 0 < chunkSize)
    (hnon : ∀ i, (nonces i).length = 12)
    (hround : ∀ n m, m.length ≤ chunkSize →
      (c.enc (kd password salt) n m).bind (c.dec (kd password salt) n) = some m)
    (hctlen : ∀ n m ct, m.length ≤ chunkSize →
      c.enc (kd password salt) n m = some ct → ct.length < 4294967296) :
    (encrypt_stream c kd salt nonces chunkSize password input).1 = Except.ok () ∧
    decrypt_stream c kd password
        (encrypt_stream c kd salt nonces chunkSize password input).2 =
      (Except.ok (), input) := by
  obtain ⟨h1, h2⟩ := decryptLoop_encryptLoop c (kd password salt) nonces chunkSize
    hcs hnon hround hctlen input.length input 0 0 le_rfl
  unfold encrypt_stream decrypt_stream
  rw [if_neg hpw, if_neg hpw]
  have hlen32 : ¬ (salt ++ (encryptLoop c (kd password salt) nonces chunkSize 0 input).2).length < 32 := by
    simp [List.length_append, hsalt]
  rw [if_neg hlen32]
  simp only [List.take_left' hsalt, List.drop_left' hsalt]
  exact ⟨h1, h2⟩

theorem tagCipher_round (key n m : List Nat) :
    ((tagCipher.enc key n m).bind (tagCipher.dec key n)) = some m := by
  simp only [tagCipher, Option.bind_some, Option.some_bind]
  rw [if_pos (by simp)]
  simp

/-- Witness for C1: the round-trip theorem applied at a concrete cipher,
key-derivation function, salt, nonce stream, chunk size 2, password and
3-byte input, discharging every hypothesis. -/
theorem encrypt_decrypt_roundtrip_witness :
    (encrypt_stream tagCipher (fun _ _ => List.replicate 32 0) (List.replicate 32 0)
        (fun _ => List.replicate 12 0) 2 [97] [1, 2, 3]).1 = Except.ok () ∧
    decrypt_stream tagCipher (fun _ _ => List.replicate 32 0) [97]
        (encrypt_stream tagCipher (fun _ _ => List.replicate 32 0) (List.replicate 32 0)
          (fun _ => List.replicate 12 0) 2 [97] [1, 2, 3]).2 =
      (Except.ok (), [1, 2, 3]) :=
  encrypt_decrypt_roundtrip tagCipher (fun _ _ => List.replicate 32 0)
    (List.replicate 32 0) (fun _ => List.replicate 12 0) 2 [97] [1, 2, 3]
    (by decide) (by simp) (by decide) (fun _ => by simp)
    (fun n m _ => tagCipher_round _ n m)
    (fun n m ct hm hct => by
      simp only [tagCipher, Option.some_inj] at hct
      subst hct
      simp only [List.length_append, List.length_replicate]
      omega)

theorem parseRecords_nil : parseRecords [] = some [] := by
  rw [parseRecords]
  simp

/-- Parsing a well-formed record at the head of the stream consumes
exactly `nonce ‖ u32le |ct| ‖ ct` and continues on the remainder. -/
theorem parseRecords_record (nonce ct rest : List Nat) (hn : nonce.length = 12)
    (hct : ct.length < 4294967296) :
    parseRecords (nonce ++ u32le ct.length ++ ct ++ rest) =
      (parseRecords rest).map (fun rs => (nonce, ct) :: rs) := by
  have h0 : ¬ (nonce ++ u32le ct.length ++ ct ++ rest).length = 0 := by
    simp [List.length_append, hn]
  have h12 : ¬ (nonce ++ u32le ct.length ++ ct ++ rest).length < 12 := by
    simp [List.length_append, hn]
  have t1 : (nonce ++ (u32le ct.length ++ (ct ++ rest))).take 12 = nonce :=
    List.take_left' hn
  have d1 : (nonce ++ (u32le ct.length ++ (ct ++ rest))).drop 12 =
      u32le ct.length ++ (ct ++ rest) := List.drop_left' hn
  have t2 : (u32le ct.length ++ (ct ++ rest)).take 4 = u32le ct.length :=
    List.take_left' (u32le_length _)
  have d2 : (u32le ct.length ++ (ct ++ rest)).drop 4 = ct ++ rest :=
    List.drop_left' (u32le_length _)
  have hlen : leVal (u32le ct.length) = ct.length := by
    rw [leVal_u32le]
    exact Nat.mod_eq_of_lt hct
  have h4 : ¬ (u32le ct.length ++ (ct ++ rest)).length < 4 := by
    simp [List.length_append, u32le_length]
  have hc : ¬ (ct ++ rest).length < ct.length := by
    simp [List.length_append]
  rw [parseRecords, if_neg h0, if_neg h12]
  simp only [List.append_assoc] at *
  simp only [d1, t1, t2, d2, hlen, List.take_left, List.drop_left, if_neg h4, if_neg hc]

/-- The byte stream emitted by the encryption loop parses back into
exactly `numChunks` records, provided every chunk encryption succeeds
with a `u32`-sized ciphertext. -/
theorem encryptLoop_parseRecords (c : Cipher) (key : List Nat) (nonces : Nat → List Nat)
    (chunkSize : Nat) (hcs : 0 < chunkSize)
    (hnon : ∀ i, (nonces i).length = 12)
    (henc : ∀ n m, m.length ≤ chunkSize →
      ∃ ct, c.enc key n m = some ct ∧ ct.length < 4294967296) :
    ∀ fuel input idx, input.length ≤ fuel →
      (encryptLoop c key nonces chunkSize idx input).1 = Except.ok () ∧
      ∃ rs, parseRecords (encryptLoop c key nonces chunkSize idx input).2 = some rs ∧
        rs.length = numChunks chunkSize input := by
  intro fuel
  induction fuel with
  | zero =>
    intro input idx hle
    have hnil : input = [] := List.eq_nil_of_length_eq_zero (Nat.le_zero.mp hle)
    subst hnil
    rw [encryptLoop_min_zero _ _ _ _ _ _ (by simp), numChunks]
    exact ⟨rfl, [], parseRecords_nil, by simp⟩
  | succ n ih =>
    intro input idx hle
    by_cases h0 : min chunkSize input.length = 0
    · have hnil : input = [] := by
        have : input.length = 0 := by omega
        exact List.eq_nil_of_length_eq_zero this
      subst hnil
      rw [encryptLoop_min_zero _ _ _ _ _ _ (by simp), numChunks]
      exact ⟨rfl, [], parseRecords_nil, by simp⟩
    · have hchunk : (input.take chunkSize).length ≤ chunkSize := by
        simp [List.length_take]
      obtain ⟨ct, hct_enc, hct_len⟩ := henc (nonces idx) (input.take chunkSize) hchunk
      have hdrop : (input.drop chunkSize).length ≤ n := by
        simp only [List.length_drop]
        omega
      obtain ⟨ih1, rs, ihp, ihlen⟩ := ih (input.drop chunkSize) (idx + 1) hdrop
      rw [encryptLoop_step c key nonces chunkSize idx input ct h0 hct_enc]
      refine ⟨ih1, (nonces idx, ct) :: rs, ?_, ?_⟩
      · have hrec := parseRecords_record (nonces idx) ct
          ((encryptLoop c key nonces chunkSize (idx + 1) (input.drop chunkSize)).2)
          (hnon idx) hct_len
        simp only [List.append_assoc] at hrec ⊢
        rw [hrec, ihp]
        rfl
      · rw [numChunks, if_neg h0]
        simp [ihlen]

/-- The chunk count on input whose length is an exact multiple of the
chunk size is exactly `length / chunkSize`. -/
theorem numChunks_mul (chunkSize : Nat) (hcs : 0 < chunkSize) :
    ∀ k (input : List Nat), input.length = k * chunkSize →
      numChunks chunkSize input = k := by
  intro k
  induction k with
  | zero =>
    intro input h
    simp only [Nat.zero_mul] at h
    rw [numChunks]
    simp [h]
  | succ k ih =>
    intro input h
    have hmin : ¬ min chunkSize input.length = 0 := by
      rw [h]
      have : 0 < (k + 1) * chunkSize := by positivity
      omega
    rw [numChunks, if_neg hmin]
    have hdl : (input.drop chunkSize).length = k * chunkSize := by
      simp only [List.length_drop, h]
      have : (k + 1) * chunkSize = k * chunkSize + chunkSize := by ring
      omega
    rw [ih _ hdl]

/-- C2: for every non-empty credential `encrypt_stream` writes exactly
the 32-byte salt followed by zero or more wire records
(`nonce(12B) ‖ length(4B LE) ‖ ciphertext`); empty input yields the
salt alone with zero records, and input of length an exact multiple of
the chunk size yields exactly `length / chunkSize` records. -/
theorem encrypt_container_structure (c : Cipher) (kd : List Nat → List Nat → List Nat)
    (salt : List Nat) (nonces : Nat → List Nat) (chunkSize : Nat)
    (password input : List Nat)
    (hpw : password ≠ []) (hcs : 0 < chunkSize)
    (hnon : ∀ i, (nonces i).length = 12)
    (henc : ∀ n m, m.length ≤ chunkSize →
      ∃ ct, c.enc (kd password salt) n m = some ct ∧ ct.length < 4294967296) :
    ∃ body rs,
      encrypt_stream c kd salt nonces chunkSize password input =
        (Except.ok (), salt ++ body) ∧
      parseRecords body = some rs ∧
      rs.length = numChunks chunkSize input ∧
      (input = [] → body = [] ∧ rs = []) ∧
      (∀ k, input.length = k * chunkSize → rs.length = k) := by
  obtain ⟨h1, rs, hp, hlen⟩ := encryptLoop_parseRecords c (kd password salt) nonces
    chunkSize hcs hnon henc input.length input 0 le_rfl
  refine ⟨(encryptLoop c (kd password salt) nonces chunkSize 0 input).2, rs, ?_, hp, hlen, ?_, ?_⟩
  · unfold encrypt_stream
    rw [if_neg hpw]
    simp only [Prod.mk.injEq]
    exact ⟨h1, by simp⟩
  · intro hnil
    subst hnil
    rw [encryptLoop_min_zero _ _ _ _ _ _ (by simp)] at hp ⊢
    simp only [parseRecords_nil, Option.some_inj] at hp
    exact ⟨rfl, hp.symm⟩
  · intro k hk
    rw [hlen, numChunks_mul chunkSize hcs k input hk]

/-- Witness for C2: the container-structure theorem applied at the
concrete cipher, salt, nonces, chunk size 2 and a 4-byte input (an
exact multiple of the chunk size), discharging every hypothesis. -/
theorem encrypt_container_structure_witness :
    ∃ body rs,
      encrypt_stream tagCipher (fun _ _ => List.replicate 32 0) (List.replicate 32 0)
          (fun _ => List.replicate 12 0) 2 [97] [1, 2, 3, 4] =
        (Except.ok (), List.replicate 32 0 ++ body) ∧
      parseRecords body = some rs ∧
      rs.length = numChunks 2 [1, 2, 3, 4] ∧
      ([1, 2, 3, 4] = ([] : List Nat) → body = [] ∧ rs = []) ∧
      (∀ k, ([1, 2, 3, 4] : List Nat).length = k * 2 → rs.length = k) :=
  encrypt_container_structure tagCipher (fun _ _ => List.replicate 32 0)
    (List.replicate 32 0) (fun _ => List.replicate 12 0) 2 [97] [1, 2, 3, 4]
    (by decide) (by decide) (fun _ => by simp)
    (fun n m hm => ⟨m ++ List.replicate 16 0, rfl, by
      simp only [List.length_append, List.length_replicate]
      omega⟩)

/-- Counterexample to C4 as stated: a container truncated 5 bytes into
the 12-byte nonce of its first record (32-byte salt followed by 5 stray
bytes) decrypts with `Ok(())` and empty output instead of an I/O error.
`read_exact` signals `UnexpectedEof` for any partial fill, and the
source `break`s on that kind without distinguishing 0 read bytes from a
partial nonce (`aes.rs`/`chacha20.rs` lines 108-112). -/
theorem decrypt_nonce_truncation_is_ok :
    decrypt_stream tagCipher (fun _ _ => List.replicate 32 0) [97]
        (List.replicate 37 0) = (Except.ok (), []) := by
  unfold decrypt_stream
  rw [if_neg (by decide), if_neg (by simp)]
  rw [List.drop_replicate]
  exact decryptLoop_eof _ _ _ _ (by simp)

/-- C4 as amended: end-of-input at a chunk-record boundary or anywhere
within the first 12 bytes of a record (i.e. partway through the nonce)
is normal successful termination; truncation within the 4-byte length
field or within the announced ciphertext is an I/O error; and for a
non-empty credential and a stream long enough to hold the 32-byte salt,
`decrypt_stream` is exactly this record loop run after the salt. -/
theorem decrypt_truncation_behaviour (c : Cipher) (kd : List Nat → List Nat → List Nat)
    (key password input : List Nat) (idx : Nat) :
    (input.length < 12 → decryptLoop c key idx input = (Except.ok (), [])) ∧
    (12 ≤ input.length → input.length < 16 →
      decryptLoop c key idx input = (Except.error CryptoError.IoError, [])) ∧
    (16 ≤ input.length → input.length < 16 + leVal ((input.drop 12).take 4) →
      decryptLoop c key idx input = (Except.error CryptoError.IoError, [])) ∧
    (password ≠ [] → 32 ≤ input.length →
      decrypt_stream c kd password input =
        decryptLoop c (kd password (input.take 32)) 0 (input.drop 32)) := by
  refine ⟨fun h => decryptLoop_eof c key idx input h, fun h12 h16 => ?_, fun h16 hlen => ?_, fun hpw h32 => ?_⟩
  · exact decryptLoop_lenTrunc c key idx input (by omega)
      (by simp only [List.length_drop]; omega)
  · exact decryptLoop_ctTrunc c key idx input (by omega)
      (by simp only [List.length_drop]; omega)
      (by simp only [List.length_drop]; omega)
  · unfold decrypt_stream
    rw [if_neg hpw, if_neg (by omega)]

/-- Witness for C4 (amended): each of the four cases applied at a
concrete stream -- 5 stray bytes (normal termination inside a nonce),
14 bytes (truncated length field), a record announcing 5 ciphertext
bytes with only 2 present (truncated ciphertext), and a 37-byte
container (framing after the salt). -/
theorem decrypt_truncation_behaviour_witness :
    decryptLoop tagCipher [] 0 (List.replicate 5 0) = (Except.ok (), []) ∧
    decryptLoop tagCipher [] 0 (List.replicate 14 0) =
      (Except.error CryptoError.IoError, []) ∧
    decryptLoop tagCipher [] 0 (List.replicate 12 0 ++ [5, 0, 0, 0] ++ [1, 2]) =
      (Except.error CryptoError.IoError, []) ∧
    decrypt_stream tagCipher (fun _ _ => List.replicate 32 0) [97]
        (List.replicate 37 0) =
      decryptLoop tagCipher
        ((fun _ _ => List.replicate 32 0) ([97] : List Nat)
          ((List.replicate 37 0).take 32)) 0 ((List.replicate 37 0).drop 32) :=
  ⟨(decrypt_truncation_behaviour tagCipher (fun _ _ => List.replicate 32 0) [] []
      (List.replicate 5 0) 0).1 (by simp),
   (decrypt_truncation_behaviour tagCipher (fun _ _ => List.replicate 32 0) [] []
      (List.replicate 14 0) 0).2.1 (by simp) (by simp),
   (decrypt_truncation_behaviour tagCipher (fun _ _ => List.replicate 32 0) [] []
      (List.replicate 12 0 ++ [5, 0, 0, 0] ++ [1, 2]) 0).2.2.1 (by simp)
      (by norm_num [List.drop_append, leVal]),
   (decrypt_truncation_behaviour tagCipher (fun _ _ => List.replicate 32 0) []
      [97] (List.replicate 37 0) 0).2.2.2 (by decide) (by simp)⟩

/-- C5: with an empty credential, `encrypt_stream` and `decrypt_stream`
return `InvalidPassword` and write nothing, for every cipher (hence for
both AES-256-GCM and ChaCha20-Poly1305, whose implementations share
this guard), every key-derivation function, salt, nonce stream, chunk
size and input stream.  The guard is the first statement of both
functions, before anything is written. -/
theorem empty_password_rejected (c : Cipher) (kd : List Nat → List Nat → List Nat)
    (salt : List Nat) (nonces : Nat → List Nat) (chunkSize : Nat) (input : List Nat) :
    encrypt_stream c kd salt nonces chunkSize [] input =
      (Except.error CryptoError.InvalidPassword, []) ∧
    decrypt_stream c kd [] input =
      (Except.error CryptoError.InvalidPassword, []) := by
  constructor
  · rw [encrypt_stream, if_pos rfl]
  · rw [decrypt_stream, if_pos rfl]

/-! Progress tracker (src/progress.rs, src/models.rs) -/

theorem update_timing_preserves (now : ℚ) (p : ProgressInfo) :
    (update_timing now p).current_file = p.current_file ∧
    (update_timing now p).current_file_index = p.current_file_index ∧
    (update_timing now p).total_files = p.total_files ∧
    (update_timing now p).current_file_progress = p.current_file_progress ∧
    (update_timing now p).overall_progress = p.overall_progress ∧
    (update_timing now p).current_file_size = p.current_file_size ∧
    (update_timing now p).processed_bytes = p.processed_bytes ∧
    (update_timing now p).total_bytes = p.total_bytes := by
  unfold update_timing
  dsimp only
  split
  · split <;> simp
  · simp

/-- C7: `start_file(index, name, size)` installs the file identity and
size, resets the per-file ratio to 0 and sets the overall ratio to
`index / total_files`; `complete_file(size)` sets the per-file ratio to
1, adds `size` to `processed_bytes` and sets the overall ratio to
`(index + 1) / total_files`; `update_file_progress` stores its argument
clamped into `[0, 1]`. -/
theorem tracker_operation_updates (p : ProgressInfo) (i size : Nat)
    (name : String) (r now : ℚ) :
    (start_file p i name size now).current_file = name ∧
    (start_file p i name size now).current_file_index = i ∧
    (start_file p i name size now).current_file_size = size ∧
    (start_file p i name size now).current_file_progress = 0 ∧
    (start_file p i name size now).overall_progress =
      (i : ℚ) / (p.total_files : ℚ) ∧
    (complete_file p size now).current_file_progress = 1 ∧
    (complete_file p size now).processed_bytes = p.processed_bytes + size ∧
    (complete_file p size now).overall_progress =
      ((p.current_file_index : ℚ) + 1) / (p.total_files : ℚ) ∧
    (update_file_progress p r now).current_file_progress = clampQ r 0 1 ∧
    0 ≤ clampQ r 0 1 ∧ clampQ r 0 1 ≤ 1 := by
  have hs := update_timing_preserves now
    { p with
      current_file := name
      current_file_index := i
      current_file_size := size
      current_file_progress := 0
      overall_progress := (i : ℚ) / (p.total_files : ℚ) }
  have hc := update_timing_preserves now
    { p with
      current_file_progress := 1
      processed_bytes := p.processed_bytes + size
      overall_progress := ((p.current_file_index : ℚ) + 1) / (p.total_files : ℚ) }
  have hu := update_timing_preserves now
    { p with current_file_progress := clampQ r 0 1 }
  have hclamp : 0 ≤ clampQ r 0 1 ∧ clampQ r 0 1 ≤ 1 := by
    unfold clampQ
    split
    · constructor <;> norm_num
    · split
      · constructor <;> norm_num
      · constructor <;> linarith [le_of_not_lt (by assumption : ¬ r < 0),
          le_of_not_lt (by assumption : ¬ (1 : ℚ) < r)]
  unfold start_file complete_file update_file_progress
  refine ⟨?_, ?_, ?_, ?_, ?_, ?_, ?_, ?_, ?_, hclamp.1, hclamp.2⟩
  · rw [hs.1]
  · rw [hs.2.1]
  · rw [hs.2.2.2.2.2.1]
  · rw [hs.2.2.2.1]
  · rw [hs.2.2.2.2.1]
  · rw [hc.2.2.2.1]
  · rw [hc.2.2.2.2.2.2.1]
  · rw [hc.2.2.2.2.1]
  · rw [hu.2.2.2.1]

theorem applyOp_totals (p : ProgressInfo) (op : ProgressOp) :
    (applyOp p op).total_files = p.total_files ∧
    (applyOp p op).total_bytes = p.total_bytes ∧
    p.processed_bytes ≤ (applyOp p op).processed_bytes := by
  cases op with
  | start i name size now =>
    have h := update_timing_preserves now
      { p with
        current_file := name
        current_file_index := i
        current_file_size := size
        current_file_progress := 0
        overall_progress := (i : ℚ) / (p.total_files : ℚ) }
    exact ⟨h.2.2.1, h.2.2.2.2.2.2.2, le_of_eq h.2.2.2.2.2.2.1.symm⟩
  | update r now =>
    have h := update_timing_preserves now
      { p with current_file_progress := clampQ r 0 1 }
    exact ⟨h.2.2.1, h.2.2.2.2.2.2.2, le_of_eq h.2.2.2.2.2.2.1.symm⟩
  | complete size now =>
    have h := update_timing_preserves now
      { p with
        current_file_progress := 1
        processed_bytes := p.processed_bytes + size
        overall_progress := ((p.current_file_index : ℚ) + 1) / (p.total_files : ℚ) }
    exact ⟨h.2.2.1, h.2.2.2.2.2.2.2,
      le_of_le_of_eq (Nat.le_add_right _ _) h.2.2.2.2.2.2.1.symm⟩

theorem snapshots_head (p : ProgressInfo) (ops : List ProgressOp) :
    (snapshots p ops).head? = some p := by
  cases ops <;> simp [snapshots, List.scanl]

theorem snapshots_invariant (p : ProgressInfo) (ops : List ProgressOp) :
    (∀ s ∈ snapshots p ops,
      s.total_files = p.total_files ∧ s.total_bytes = p.total_bytes) ∧
    List.Chain' (fun a b => a.processed_bytes ≤ b.processed_bytes)
      (snapshots p ops) := by
  induction ops generalizing p with
  | nil => simp [snapshots, List.scanl]
  | cons op ops ih =>
    obtain ⟨ihmem, ihchain⟩ := ih (applyOp p op)
    have hstep := applyOp_totals p op
    constructor
    · intro s hs
      simp only [snapshots, List.scanl, List.mem_cons] at hs
      rcases hs with hs | hs
      · subst hs
        exact ⟨rfl, rfl⟩
      · obtain ⟨h1, h2⟩ := ihmem s hs
        exact ⟨h1.trans hstep.1, h2.trans hstep.2.1⟩
    · simp only [snapshots, List.scanl]
      rw [List.chain'_cons']
      refine ⟨?_, ihchain⟩
      intro h hh
      have := snapshots_head (applyOp p op) ops
      rw [snapshots] at this
      rw [this] at hh
      simp only [Option.mem_def, Option.some_inj] at hh
      subst hh
      exact hstep.2.2

/-- C6: across every sequence of tracker operations starting from the
constructed state, `total_files` and `total_bytes` keep their
construction values in every emitted snapshot, and `processed_bytes`
is non-decreasing from each snapshot to the next. -/
theorem tracker_totals_fixed_processed_monotone (total_files total_bytes : Nat)
    (ops : List ProgressOp) :
    (∀ s ∈ snapshots (trackerInit total_files total_bytes) ops,
      s.total_files = total_files ∧ s.total_bytes = total_bytes) ∧
    List.Chain' (fun a b => a.processed_bytes ≤ b.processed_bytes)
      (snapshots (trackerInit total_files total_bytes) ops) :=
  snapshots_invariant (trackerInit total_files total_bytes) ops

/-! Pooled-async orchestration (src/crypto/engine.rs) -/

/-- Counterexample to C3 as stated: with the skip flag set before a
single pending task of file size 5 starts (stop flag clear), the task
reports success and the orchestrator then calls
`complete_file(file_size)` on that `Ok` result exactly as for a
processed file, so 5 bytes -- not zero -- are added to
`processed_bytes`. -/
theorem skip_adds_file_bytes_counterexample :
    (runPoolTasks true [(false, Except.ok (), 5)]).1 = [(Except.ok (), 5)] ∧
    processedBytesOf (runPoolTasks true [(false, Except.ok (), 5)]).1 = 5 ∧
    (5 : Nat) ≠ 0 :=
  ⟨rfl, rfl, by decide⟩

/-- C3 as amended: when skip is requested before a pooled-async task
starts, that task is reported as succeeded and the flag is false
immediately after being honored; the skip affects exactly that one
task (all later tasks run with the flag clear and return their real
outcome); and the orchestrator adds the skipped file's size to
`processed_bytes`, exactly as for a normally processed file (not zero
bytes). -/
theorem skip_consumed_once (real : Except String Unit) (size : Nat)
    (rest : List (Bool × Except String Unit × Nat)) :
    runPoolTasks true ((false, real, size) :: rest) =
      ((Except.ok (), size) :: (runPoolTasks false rest).1,
        (runPoolTasks false rest).2) ∧
    (∀ tasks : List (Bool × Except String Unit × Nat),
      runPoolTasks false tasks =
        (tasks.map (fun t =>
          ((if t.1 then Except.error "Operation cancelled" else t.2.1), t.2.2)),
          false)) ∧
    processedBytesOf ((Except.ok (), size) :: (runPoolTasks false rest).1) =
      size + processedBytesOf (runPoolTasks false rest).1 := by
  refine ⟨rfl, ?_, rfl⟩
  intro tasks
  induction tasks with
  | nil => rfl
  | cons t ts ih =>
    obtain ⟨stop, real', size'⟩ := t
    cases stop <;> simp [runPoolTasks, workerStep, ih]

theorem recvWrites_single (stopRecv : Nat → Bool)
    (entry : Nat → Option (Nat × Except String Unit)) :
    ∀ rem k, ∃ t, recvWrites stopRecv entry k rem = [t] ∧
      t ≠ OperationStatus.Running := by
  intro rem
  induction rem with
  | zero =>
    intro k
    exact ⟨OperationStatus.Completed, rfl, by simp⟩
  | succ rem ih =>
    intro k
    by_cases hs : stopRecv k
    · exact ⟨OperationStatus.Cancelled, by simp [recvWrites, hs], by simp⟩
    · rcases he : entry k with _ | ⟨i, r⟩
      · exact ⟨OperationStatus.Failed "Failed to receive result from thread pool",
          by simp [recvWrites, hs, he], by simp⟩
      · rcases r with e | u
        · exact ⟨OperationStatus.Failed e, by simp [recvWrites, hs, he], by simp⟩
        · obtain ⟨t, ht, hne⟩ := ih (k + 1)
          exact ⟨t, by simp [recvWrites, hs, he, ht], hne⟩

/-- C8: in the pooled-async state machine the shared status cell,
initialised to `Running`, is written exactly once per operation, with
a terminal value (`Completed`, `Failed(reason)` or `Cancelled`) -- so
the status transitions from `Running` to exactly one terminal state
and no later step of the same operation writes a different status. -/
theorem status_written_once_terminal (n : Nat) (stopDisp stopRecv : Nat → Bool)
    (entry : Nat → Option (Nat × Except String Unit)) :
    ∃ t, statusWrites n stopDisp stopRecv entry = [t] ∧
      t ≠ OperationStatus.Running := by
  unfold statusWrites
  rcases h : firstStop stopDisp n with _ | i
  · exact recvWrites_single stopRecv entry n 0
  · exact ⟨OperationStatus.Cancelled, rfl, by simp⟩

/-! Output naming and password verification (src/crypto/engine.rs) -/

theorem trimEndMatches_pos (s pat : List Char)
    (h : pat ≠ [] ∧ pat.isSuffixOf s) :
    trimEndMatches s pat = trimEndMatches (s.take (s.length - pat.length)) pat := by
  rw [trimEndMatches, if_pos h]

theorem trimEndMatches_neg (s pat : List Char)
    (h : ¬(pat ≠ [] ∧ pat.isSuffixOf s)) :
    trimEndMatches s pat = s := by
  rw [trimEndMatches, if_neg h]

/-- Applying `trim_end_matches` with a non-empty pattern removes all trailing
occurrences: the input is the result followed by `k` copies of the
pattern, the result no longer ends with the pattern, and `k ≥ 1`
whenever the input did end with it. -/
theorem trimEndMatches_spec (pat : List Char) (hpat : pat ≠ []) :
    ∀ fuel s, s.length ≤ fuel →
      ∃ k, s = trimEndMatches s pat ++ List.flatten (List.replicate k pat) ∧
        pat.isSuffixOf (trimEndMatches s pat) = false ∧
        (pat.isSuffixOf s = true → 1 ≤ k) := by
  intro fuel
  induction fuel with
  | zero =>
    intro s hle
    have hnil : s = [] := List.eq_nil_of_length_eq_zero (Nat.le_zero.mp hle)
    subst hnil
    have hsf : pat.isSuffixOf ([] : List Char) = false := by
      cases hb : pat.isSuffixOf ([] : List Char)
      · rfl
      · have hsnil := List.isSuffixOf_iff_suffix.mp hb
        rw [List.suffix_nil] at hsnil
        exact absurd hsnil hpat
    refine ⟨0, ?_, ?_, ?_⟩
    · rw [trimEndMatches_neg _ _ (by simp [hsf])]
      simp
    · rw [trimEndMatches_neg _ _ (by simp [hsf])]
      exact hsf
    · intro hcon
      rw [hsf] at hcon
      cases hcon
  | succ n ih =>
    intro s hle
    by_cases hsuf : pat.isSuffixOf s
    · obtain ⟨t, ht⟩ := List.isSuffixOf_iff_suffix.mp hsuf
      have hp : 0 < pat.length := List.length_pos.mpr hpat
      have htake : s.take (s.length - pat.length) = t := by
        rw [← ht]
        simp [List.length_append]
      have htlen : t.length ≤ n := by
        have : s.length = t.length + pat.length := by
          rw [← ht, List.length_append]
        omega
      obtain ⟨k, hk1, hk2, _⟩ := ih t htlen
      have heq : trimEndMatches s pat = trimEndMatches t pat := by
        rw [trimEndMatches_pos s pat ⟨hpat, hsuf⟩, htake]
      refine ⟨k + 1, ?_, ?_, fun _ => by omega⟩
      · rw [heq, ← ht]
        conv_lhs => rw [hk1]
        rw [List.replicate_succ', List.flatten_append]
        simp
      · rw [heq]
        exact hk2
    · have hsf : pat.isSuffixOf s = false := by
        cases hb : pat.isSuffixOf s
        · rfl
        · exact absurd hb hsuf
      refine ⟨0, ?_, ?_, ?_⟩
      · rw [trimEndMatches_neg _ _ (by simp [hsf])]
        simp
      · rw [trimEndMatches_neg _ _ (by simp [hsf])]
        exact hsf
      · intro hcon
        rw [hsf] at hcon
        cases hcon

/-- Counterexample to C9 as stated: decrypting a file named
`a.enc.enc` with extension setting `enc` produces output name `a`, not
`a.enc` -- `trim_end_matches` removes every trailing `.enc`, not one
occurrence. -/
theorem decrypt_output_name_counterexample :
    decryptOutputName "enc".data "a.enc.enc".data = "a".data ∧
    decryptOutputName "enc".data "a.enc.enc".data ≠ "a.enc".data := by
  have h1 : decryptOutputName "enc".data "a.enc.enc".data = "a".data := by
    unfold decryptOutputName
    rw [if_pos (by decide)]
    rw [trimEndMatches_pos _ _ ⟨by decide, by decide⟩]
    rw [show ("a.enc.enc".data.take
        ("a.enc.enc".data.length - ('.' :: "enc".data).length)) = "a.enc".data
      from by decide]
    rw [trimEndMatches_pos _ _ ⟨by decide, by decide⟩]
    rw [show ("a.enc".data.take
        ("a.enc".data.length - ('.' :: "enc".data).length)) = "a".data
      from by decide]
    rw [trimEndMatches_neg _ _ (by decide)]
  exact ⟨h1, by rw [h1]; decide⟩

/-- C9 as amended: for every file name and extension setting, when the
name ends with `"." + extension` the decrypt output name is the name
with all (one or more) trailing occurrences of `"." + extension`
removed (the result no longer ends with it); otherwise it is the name
with `".decrypted"` appended. -/
theorem decrypt_output_name_spec (file_extension file_name : List Char) :
    (('.' :: file_extension).isSuffixOf file_name = false →
      decryptOutputName file_extension file_name =
        file_name ++ ".decrypted".data) ∧
    (('.' :: file_extension).isSuffixOf file_name = true →
      ∃ k, 1 ≤ k ∧
        file_name = decryptOutputName file_extension file_name ++
          List.flatten (List.replicate k ('.' :: file_extension)) ∧
        ('.' :: file_extension).isSuffixOf
          (decryptOutputName file_extension file_name) = false) := by
  constructor
  · intro h
    unfold decryptOutputName
    rw [if_neg (by simp [h])]
  · intro h
    obtain ⟨k, hk1, hk2, hk3⟩ := trimEndMatches_spec ('.' :: file_extension)
      (by simp) file_name.length file_name le_rfl
    have hout : decryptOutputName file_extension file_name =
        trimEndMatches file_name ('.' :: file_extension) := by
      unfold decryptOutputName
      rw [if_pos h]
    exact ⟨k, hk3 h, by rw [hout]; exact hk1, by rw [hout]; exact hk2⟩

/-- Witness for C9 (amended): both branches applied at concrete
names -- `photo.enc` (ends with `.enc`, one occurrence stripped) and
`notes.txt` (fallback appends `.decrypted`). -/
theorem decrypt_output_name_spec_witness :
    decryptOutputName "enc".data "notes.txt".data =
      "notes.txt".data ++ ".decrypted".data ∧
    ∃ k, 1 ≤ k ∧
      "photo.enc".data = decryptOutputName "enc".data "photo.enc".data ++
        List.flatten (List.replicate k ('.' :: "enc".data)) ∧
      ('.' :: "enc".data).isSuffixOf
        (decryptOutputName "enc".data "photo.enc".data) = false :=
  ⟨(decrypt_output_name_spec "enc".data "notes.txt".data).1 (by decide),
   (decrypt_output_name_spec "enc".data "photo.enc".data).2 (by decide)⟩

/-- C10 fails on the code: for any password, a readable file of exactly
32 bytes (≥ 32 but < 64) makes `CryptoEngine::verify_password` slice
`&file_data[0..64]` out of bounds -- a panic, not a `Result`.  Contents
shorter than 32 bytes and of at least 64 bytes behave as claimed. -/
theorem verify_password_panics_on_short_file :
    (∀ password, engine_verify_password password (List.replicate 32 0) = none) ∧
    (∀ password, engine_verify_password password (List.replicate 31 0) =
      some (Except.ok false)) ∧
    (∀ password, engine_verify_password password (List.replicate 64 0) =
      some (Except.ok true)) := by
  refine ⟨fun password => ?_, fun password => ?_, fun password => ?_⟩ <;>
    simp [engine_verify_password, sliceTo, provider_verify_password]

end Krypton
